import Mathlib

/-!
Verification of the `isshub_sync` fluent HTTP path-building client
(`src/isshub_sync/connection/connection.py` and its helpers) against its
natural-language specification.

The Python code is shallowly embedded: strings are Lean `String`s, Python
`str` methods are modelled by explicit executable functions on the character
lists, optional / sentinel parameters (`NotProvided`) become `Option` layers,
and the `aiohttp` transport call is represented by the record of the method,
URL and keyword arguments the code hands to it.  `urllib.parse.urlparse` and
`urlunparse` are modelled faithfully for the class of inputs the claims are
about (URLs without parameter components and bracket-free hosts).
-/

namespace IsshubSync

/-! ### Python string primitives -/

/-- Model of the Python expression `s.startswith(pre)`. -/
def pyStartsWith (s pre : String) : Bool := decide (pre.data <+: s.data)

/-- Model of the Python expression `s.endswith(suf)`. -/
def pyEndsWith (s suf : String) : Bool := decide (suf.data <:+ s.data)

/-- Model of Python `str.lower` (the embedded code only lowercases ASCII). -/
def lowerStr (s : String) : String := ⟨s.data.map Char.toLower⟩

/-- Model of Python `str.upper` (the embedded code only uppercases ASCII). -/
def upperStr (s : String) : String := ⟨s.data.map Char.toUpper⟩

/-- Model of Python `str.capitalize` for ASCII strings: first character
uppercased, all remaining characters lowercased. -/
def pyCapitalize (s : String) : String :=
  match s.data with
  | [] => ""
  | c :: rest => ⟨Char.toUpper c :: rest.map Char.toLower⟩

/-- Python truthiness of an `Optional[str]` value: `None` and `""` are falsy. -/
def pyTruthyStr : Option String → Bool
  | none => false
  | some s => s != ""

/-- Split a character list at the first occurrence of `sep`.  Returns the
characters before the separator and, when the separator occurs, the characters
after it.  This models Python `str.find` plus slicing / `str.split(sep, 1)`. -/
def splitFirst (sep : Char) : List Char → List Char × Option (List Char)
  | [] => ([], none)
  | c :: rest =>
    if c = sep then ([], some rest)
    else
      let r := splitFirst sep rest
      (c :: r.1, r.2)

/-- Model of Python `s.split('/')` on character lists: the list of chunks
between slashes.  As in Python, the result is never empty and empty chunks are
kept (`"".split('/') == ['']`, `"/a".split('/') == ['', 'a']`). -/
def splitOnSlash : List Char → List (List Char)
  | [] => [[]]
  | c :: rest =>
    let r := splitOnSlash rest
    if c = '/' then [] :: r else (c :: r.headD []) :: r.tail

/-- Model of the Python expression `s.split('/')`. -/
def pySplitSlash (s : String) : List String :=
  (splitOnSlash s.data).map fun l => ⟨l⟩

/-! ### Model of `urllib.parse` for the inputs used by `_validate_root` -/

/-- Result record of `urllib.parse.urlparse` (the `params` component is not
modelled; the claims only concern URLs without `;` parameter sections, for
which it is empty). -/
structure ParseResult where
  scheme : String
  netloc : String
  path : String
  query : String
  fragment : String
deriving Repr, DecidableEq

/-- Characters allowed in a URL scheme by `urllib.parse` (letters, digits and
`+-.`). -/
def isSchemeChar (c : Char) : Bool :=
  c.isAlpha || c.isDigit || c = '+' || c = '-' || c = '.'

/-- A character that does not terminate the network-location component. -/
def netlocChar (c : Char) : Bool :=
  c != '/' && c != '?' && c != '#'

/-- Scheme-extraction step of `urlsplit`: if the input has a colon preceded by
a nonempty run of scheme characters starting with a letter, that run
(lowercased) is the scheme and the remainder follows the colon. -/
def splitScheme (cs : List Char) : List Char × List Char :=
  match splitFirst ':' cs with
  | (pre, some post) =>
    if !pre.isEmpty && (pre.headD ' ').isAlpha && pre.all isSchemeChar then
      (pre.map Char.toLower, post)
    else ([], cs)
  | (_, none) => ([], cs)

/-- Netloc-extraction step of `urlsplit`: when the remainder starts with `//`,
the netloc runs until the next `/`, `?` or `#`. -/
def splitNetloc (cs : List Char) : List Char × List Char :=
  match cs with
  | '/' :: '/' :: rest => (rest.takeWhile netlocChar, rest.dropWhile netlocChar)
  | rest => ([], rest)

/-- Model of `urllib.parse.urlparse` restricted to inputs without parameter
(`;`) sections and without brackets in the host. -/
def urlparse (url : String) : ParseResult :=
  let s1 := splitScheme url.data
  let s2 := splitNetloc s1.2
  let s3 := splitFirst '#' s2.2
  let s4 := splitFirst '?' s3.1
  ⟨⟨s1.1⟩, ⟨s2.1⟩, ⟨s4.1⟩, ⟨s4.2.getD []⟩, ⟨s3.2.getD []⟩⟩

/-- Model of `urllib.parse.urlunparse` applied with empty `params`, which
reduces to `urlunsplit`. -/
def urlunsplit (scheme netloc path query fragment : String) : String :=
  let url :=
    if netloc != "" || (path != "" && decide (path.data.take 2 = ['/', '/'])) then
      let p := if path != "" && !pyStartsWith path "/" then "/" ++ path else path
      "//" ++ netloc ++ p
    else path
  let url := if scheme != "" then scheme ++ ":" ++ url else url
  let url := if query != "" then url ++ "?" ++ query else url
  if fragment != "" then url ++ "#" ++ fragment else url

/-! ### The `Connection` data model -/

/-- The failure of `Connection._validate_root` on a root whose scheme is not
`http`/`https` (the spec names this failure `InvalidRootError`; in the code it
is the failing `assert`, which propagates to the caller of the constructor). -/
inductive InvalidRootError
  | invalidScheme
deriving Repr, DecidableEq

/-- The path adjustment inside `_validate_root`:
`if path.endswith('/'): path = path[:-1]`. -/
def stripTrailingSlash (p : String) : String :=
  if pyEndsWith p "/" then ⟨p.data.dropLast⟩ else p

/-- Embedding of `Connection._validate_root`: parse the root, require an
`http`/`https` scheme, strip one trailing slash from the path component and
rebuild the URL with empty params, query and fragment. -/
def validate_root (root : String) : Except InvalidRootError String :=
  let parsed := urlparse root
  if parsed.scheme = "http" ∨ parsed.scheme = "https" then
    .ok (urlunsplit parsed.scheme parsed.netloc (stripTrailingSlash parsed.path) "" "")
  else
    .error InvalidRootError.invalidScheme

/-- Embedding of a `Connection` instance: the validated root and the
`PATH_SUFFIX` class attribute (default `"/"`, overridable in subclasses).
The lazily-created transport client is an external resource and carries no
data relevant to the claims, so it is not part of the state. -/
structure Connection where
  root : String
  PATH_SUFFIX : String
deriving Repr, DecidableEq

/-- Embedding of `Connection.__init__` for the default `PATH_SUFFIX`: the root
is validated, and a validation failure propagates as the error. -/
def Connection.make (root : String) : Except InvalidRootError Connection :=
  match validate_root root with
  | .ok r => .ok ⟨r, "/"⟩
  | .error e => .error e

/-! ### Constants and request payloads -/

/-- Embedding of `constants.HTTP_METHODS`: `aiohttp.hdrs.METH_ALL` minus
`CONNECT` and `TRACE`, i.e. all standard uppercase HTTP method names except
those two. -/
def HTTP_METHODS : List String :=
  ["DELETE", "GET", "HEAD", "OPTIONS", "PATCH", "POST", "PUT"]

/-- Embedding of the `DataModes` enumeration. -/
inductive DataModes
  | JSON
  | FORM
deriving Repr, DecidableEq

/-- Scalar Python values appearing inside request payloads. -/
inductive PyScalar
  | null
  | bool (b : Bool)
  | int (i : Int)
  | str (s : String)
deriving Repr, DecidableEq

/-- Python values passed as the `data` argument of a request (modelled to
nesting depth two, which covers the payloads the repository exercises):
`None`, a scalar, a list of scalars, or a string-keyed dict of scalars. -/
inductive PyValue
  | scalar (v : PyScalar)
  | list (xs : List PyScalar)
  | dict (entries : List (String × PyScalar))
deriving Repr, DecidableEq

/-- Hexadecimal digit character (lowercase letters, as `json.dumps` emits). -/
def hexDigitChar (n : Nat) : Char :=
  if n < 10 then Char.ofNat (48 + n) else Char.ofNat (87 + n)

/-- A `\uXXXX` escape for a code unit below `0x10000`. -/
def uEscape4 (n : Nat) : String :=
  "\\u" ++ ⟨[hexDigitChar (n / 4096 % 16), hexDigitChar (n / 256 % 16),
             hexDigitChar (n / 16 % 16), hexDigitChar (n % 16)]⟩

/-- Escaping of one character by `json.dumps` with its default
`ensure_ascii=True`: quote, backslash and the named control characters get a
short escape, other printable ASCII passes through, everything else becomes
`\uXXXX` (with a surrogate pair above `0xFFFF`). -/
def jsonEscapeChar (c : Char) : String :=
  if c = '"' then "\\\""
  else if c = '\\' then "\\\\"
  else if c = '\n' then "\\n"
  else if c = '\t' then "\\t"
  else if c = '\r' then "\\r"
  else if c.toNat = 8 then "\\b"
  else if c.toNat = 12 then "\\f"
  else if 32 ≤ c.toNat ∧ c.toNat ≤ 126 then ⟨[c]⟩
  else if c.toNat < 65536 then uEscape4 c.toNat
  else uEscape4 (55296 + (c.toNat - 65536) / 1024) ++ uEscape4 (56320 + (c.toNat - 65536) % 1024)

/-- JSON string literal for `s`, as `json.dumps` renders it. -/
def jsonQuote (s : String) : String :=
  "\"" ++ String.join (s.data.map jsonEscapeChar) ++ "\""

/-- Serialization of a scalar by `json.dumps`. -/
def jsonDumpsScalar : PyScalar → String
  | .null => "null"
  | .bool true => "true"
  | .bool false => "false"
  | .int i => Int.repr i
  | .str s => jsonQuote s

/-- Model of `json.dumps` with its defaults (item separator `", "`, key
separator `": "`, insertion order preserved). -/
def jsonDumps : PyValue → String
  | .scalar v => jsonDumpsScalar v
  | .list xs => "[" ++ String.intercalate ", " (xs.map jsonDumpsScalar) ++ "]"
  | .dict entries =>
      "\x7b" ++
        String.intercalate ", "
          (entries.map fun kv => jsonQuote kv.1 ++ ": " ++ jsonDumpsScalar kv.2) ++
      "\x7d"

/-! ### `Callable` and `Executable` -/

/-- Arguments accepted by `Callable` chains (`CallableArg = Union[str, int]`). -/
inductive CallableArg
  | str (s : String)
  | int (i : Int)
deriving Repr, DecidableEq

/-- The Python expression `str(part)` for a `CallableArg`: strings unchanged,
integers in decimal form. -/
def CallableArg.pyStr : CallableArg → String
  | .str s => s
  | .int i => Int.repr i

/-- The parts list computed by `Callable.__init__`:
`sum([str(part).split('/') for part in parts], [])`. -/
def flattenParts : List CallableArg → List String
  | [] => []
  | a :: rest => pySplitSlash (CallableArg.pyStr a) ++ flattenParts rest

/-- Embedding of a `Callable` instance: its connection and its parts. -/
structure Callable where
  connection : Connection
  parts : List String
deriving Repr, DecidableEq

/-- Embedding of `Callable.__init__`: stringify each argument and split it on
`/`, concatenating all chunks. -/
def Callable.init (connection : Connection) (parts : List CallableArg) : Callable :=
  ⟨connection, flattenParts parts⟩

/-- Embedding of `Callable.__call__`:
`Callable(self.connection, *self.parts, *args) if args else self`. -/
def Callable.call (self : Callable) (args : List CallableArg) : Callable :=
  if args = [] then self
  else Callable.init self.connection (self.parts.map CallableArg.str ++ args)

/-- Embedding of the `Callable.path` property: `'/' + '/'.join(self.parts)`. -/
def Callable.path (self : Callable) : String :=
  "/" ++ String.intercalate "/" self.parts

/-- Embedding of an `Executable` instance: connection, uppercase method and
optional path (`None` meaning "resolve at call time"). -/
structure Executable where
  connection : Connection
  method : String
  path : Option String
deriving Repr, DecidableEq

/-- Result of dynamic attribute access on a `Connection` or a `Callable`:
either an `Executable` (the attribute named an HTTP method) or a new
`Callable` extending the path. -/
inductive GetattrResult
  | ex (e : Executable)
  | call (c : Callable)
deriving Repr, DecidableEq

/-- Embedding of `Connection.__getattr__`. -/
def Connection.getattr (self : Connection) (attr : String) : GetattrResult :=
  if upperStr attr ∈ HTTP_METHODS then
    .ex ⟨self, upperStr attr, none⟩
  else
    .call (Callable.init self [.str attr])

/-- Embedding of `Connection.__call__`: `Callable(self, *args)`. -/
def Connection.call (self : Connection) (args : List CallableArg) : Callable :=
  Callable.init self args

/-- Embedding of `Callable.__getattr__`. -/
def Callable.getattr (self : Callable) (attr : String) : GetattrResult :=
  if upperStr attr ∈ HTTP_METHODS then
    .ex ⟨self.connection, upperStr attr, some (Callable.path self)⟩
  else
    .call (Callable.init self.connection (self.parts.map CallableArg.str ++ [.str attr]))

/-! ### `Connection.request` -/

/-- The Python expression `str(x)` for an `Optional[str]`: `str(None)` is the
four-character string `"None"`. -/
def pyStrOfOptStr : Option String → String
  | none => "None"
  | some s => s

/-- The suffix actually enforced by `Connection.request`:
`self.PATH_SUFFIX if path_suffix is NotProvided else str(path_suffix)`.
The outer `Option` layer models the `NotProvided` sentinel, the inner one a
possible explicit Python `None`. -/
def effectiveSuffix (self : Connection) (path_suffix : Option (Option String)) : String :=
  match path_suffix with
  | none => self.PATH_SUFFIX
  | some v => pyStrOfOptStr v

/-- Path normalization performed by `Connection.request`: prepend `/` when
missing, then append the effective suffix when it is nonempty and the path
does not already end with it. -/
def normalizedPath (self : Connection) (path : String) (path_suffix : Option (Option String)) : String :=
  let path := if pyStartsWith path "/" then path else "/" ++ path
  let suf := effectiveSuffix self path_suffix
  if suf != "" && !pyEndsWith path suf then path ++ suf else path

/-- Keyword arguments of `Connection.request` other than the path: the outer
`Option` on `data` and `headers` models the `NotProvided` sentinel (`none` =
argument omitted), and `data_mode` is `Optional[DataModes]`. -/
structure RequestArgs where
  data : Option PyValue
  data_mode : Option DataModes
  headers : Option PyValue
  path_suffix : Option (Option String)
deriving Repr, DecidableEq

/-- The invocation `Connection.request` hands to the transport client: the
lowercased method name looked up on the client, the full URL, and the `data`
and `headers` keyword arguments when present. -/
structure TransportCall where
  method : String
  url : String
  data : Option PyValue
  headers : Option PyValue
deriving Repr, DecidableEq

/-- Embedding of `Connection.request` (the lazily-created client is an
external effect with no bearing on the assembled request): lowercase the
method, normalize the path, concatenate `root + path` into the URL, serialize
`data` to JSON text when `data_mode is DataModes.JSON`, pass it through
otherwise, and omit the `data` keyword entirely when it was not provided. -/
def Connection.request (self : Connection) (method path : String) (args : RequestArgs) : TransportCall :=
  let dataKw : Option PyValue :=
    match args.data with
    | none => none
    | some d =>
      if args.data_mode = some DataModes.JSON then some (.scalar (.str (jsonDumps d)))
      else some d
  ⟨lowerStr method, self.root ++ normalizedPath self path args.path_suffix, dataKw, args.headers⟩

/-! ### `Executable.__call__` -/

/-- Path resolution of `Executable.__call__` (lines 312-320 of the source):
start from `self.path`; when that is falsy, pop a `path` keyword argument or
else the first positional argument; when the result is still falsy, use `"/"`.
Returns the resolved path, the remaining `path` keyword (still present only
when `self.path` was truthy and the caller also passed one) and the remaining
positional arguments. -/
def resolveExec (selfPath : Option String) (kwpath : Option String) (args : List String) :
    String × Option String × List String :=
  let step :=
    if pyTruthyStr selfPath then (selfPath, kwpath, args)
    else
      match kwpath with
      | some p => (some p, none, args)
      | none =>
        match args with
        | a :: rest => (some a, none, rest)
        | [] => (selfPath, none, [])
  let path :=
    match step.1 with
    | none => "/"
    | some s => if s = "" then "/" else s
  (path, step.2.1, step.2.2)

/-- Forwarding of the resolved path and remaining arguments to
`Connection.request`.  A still-present `path` keyword collides with the
positional path (Python `TypeError`), as does a positional `data` together
with a `data` keyword; a single leftover positional binds to `data`.  More
than one leftover positional would bind `data_mode` and beyond with values of
the wrong type and is outside the model. -/
def finishRequest (conn : Connection) (method path : String) (kwLeft : Option String)
    (leftover : List String) (kwargs : RequestArgs) : Option TransportCall :=
  match kwLeft with
  | some _ => none
  | none =>
    match leftover with
    | [] => some (conn.request method path kwargs)
    | [d] =>
      match kwargs.data with
      | none => some (conn.request method path ⟨some (.scalar (.str d)), kwargs.data_mode, kwargs.headers, kwargs.path_suffix⟩)
      | some _ => none
    | _ => none

/-- Embedding of `Executable.__call__`: resolve the path, then delegate to
`self.connection.request(self.method, path, *args, **kwargs)` and return the
transport response unchanged. -/
def Executable.callModel (self : Executable) (args : List String) (kwpath : Option String)
    (kwargs : RequestArgs) : Option TransportCall :=
  let r := resolveExec self.path kwpath args
  finishRequest self.connection self.method r.1 r.2.1 r.2.2 kwargs

/-! ### Models of the claimed and amended `Executable.__call__` resolution -/

/-- Fallback of the path resolution once `self.path` does not apply: take the
`path` keyword if present, else the first positional argument, else nothing. -/
def resolveFallback (kwpath : Option String) (args : List String) :
    Option String × Option String × List String :=
  match kwpath with
  | some p => (some p, none, args)
  | none =>
    match args with
    | a :: rest => (some a, none, rest)
    | [] => (none, none, [])

/-- Resolution order as the amended claim states it: `self.path` is used when
set and nonempty; otherwise a present `path` keyword is extracted and used;
otherwise the first positional argument is used and the remainder forwarded;
and a path still absent or empty after that defaults to `"/"`. -/
def amendedResolve (selfPath kwpath : Option String) (args : List String) :
    String × Option String × List String :=
  let step :=
    match selfPath with
    | some p => if p ≠ "" then (some p, kwpath, args) else resolveFallback kwpath args
    | none => resolveFallback kwpath args
  let path :=
    match step.1 with
    | some s => if s = "" then "/" else s
    | none => "/"
  (path, step.2.1, step.2.2)

/-- Resolution order exactly as the claim states it: a set `self.path`
(even the empty string) is used as-is; else a present `path` keyword's value
is used as-is; else the first positional argument; else `"/"`. -/
def claimedResolve (selfPath kwpath : Option String) (args : List String) :
    String × Option String × List String :=
  match selfPath with
  | some p => (p, kwpath, args)
  | none =>
    match kwpath with
    | some p => (p, none, args)
    | none =>
      match args with
      | a :: rest => (a, none, rest)
      | [] => ("/", none, [])

/-- `Executable.__call__` as claim C5 describes it, for comparison with
`Executable.callModel`. -/
def Executable.claimedCallModel (self : Executable) (args : List String)
    (kwpath : Option String) (kwargs : RequestArgs) : Option TransportCall :=
  let r := claimedResolve self.path kwpath args
  finishRequest self.connection self.method r.1 r.2.1 r.2.2 kwargs

/-- `Executable.__call__` as the amended claim describes it. -/
def Executable.amendedCallModel (self : Executable) (args : List String)
    (kwpath : Option String) (kwargs : RequestArgs) : Option TransportCall :=
  let r := amendedResolve self.path kwpath args
  finishRequest self.connection self.method r.1 r.2.1 r.2.2 kwargs

/-! ### The class of valid root URLs quantified over by the spec -/

/-- A root URL presented by components: a scheme, a nonempty host part, an
optional path, and optional query and fragment parts. -/
structure RootUrl where
  scheme : String
  netloc : String
  path : String
  query : Option String
  fragment : Option String
deriving Repr, DecidableEq

/-- The textual URL of a `RootUrl`:
`scheme://netloc path [?query] [#fragment]`. -/
def RootUrl.render (u : RootUrl) : String :=
  u.scheme ++ "://" ++ u.netloc ++ u.path ++
    (match u.query with | none => "" | some q => "?" ++ q) ++
    (match u.fragment with | none => "" | some f => "#" ++ f)

/-- Validity of a root URL in the sense of the spec's claim: the scheme is
`http` or `https` in any letter case; the host is nonempty and free of
URL delimiters (and of brackets, whose malformed use `urlsplit` rejects);
the path is empty or starts with `/` and has at most a single trailing slash,
with no query / fragment / parameter delimiters inside it; the query carries
no fragment delimiter.  The fragment is unconstrained. -/
def RootUrl.Valid (u : RootUrl) : Prop :=
  (lowerStr u.scheme = "http" ∨ lowerStr u.scheme = "https") ∧
  (∀ c ∈ u.scheme.data, c.isAlpha = true) ∧
  u.netloc ≠ "" ∧
  (∀ c ∈ u.netloc.data, c ≠ '/' ∧ c ≠ '?' ∧ c ≠ '#' ∧ c ≠ '[' ∧ c ≠ ']') ∧
  (u.path = "" ∨ (u.path.data.head? = some '/' ∧ pyEndsWith u.path "//" = false)) ∧
  (∀ c ∈ u.path.data, c ≠ '?' ∧ c ≠ '#' ∧ c ≠ ';') ∧
  (∀ c ∈ (u.query.getD "").data, c ≠ '#')

instance (u : RootUrl) : Decidable u.Valid := by
  unfold RootUrl.Valid
  infer_instance

/-- The characters a present query or fragment contributes to the rendered
URL: its marker character followed by its text. -/
def optMarkData (mark : Char) : Option String → List Char
  | none => []
  | some s => mark :: s.data

/-- A concrete connection (the validated form of `https://httpbin.org/`) used
for closed evaluations. -/
def conn0 : Connection := ⟨"https://httpbin.org", "/"⟩

/-! ### Supporting lemmas about splitting -/

theorem splitOnSlash_ne_nil (cs : List Char) : splitOnSlash cs ≠ [] := by
  cases cs with
  | nil => simp [splitOnSlash]
  | cons c rest =>
    simp only [splitOnSlash]
    split <;> simp

theorem splitOnSlash_cons_slash (cs : List Char) :
    splitOnSlash ('/' :: cs) = [] :: splitOnSlash cs := by
  simp [splitOnSlash]

theorem splitOnSlash_append (xs ys : List Char) :
    splitOnSlash (xs ++ '/' :: ys) = splitOnSlash xs ++ splitOnSlash ys := by
  induction xs with
  | nil => simp [splitOnSlash_cons_slash, splitOnSlash]
  | cons c xs ih =>
    by_cases h : c = '/'
    · subst h
      simp [splitOnSlash_cons_slash, ih]
    · rcases h1 : splitOnSlash xs with _ | ⟨hd, tl⟩
      · exact absurd h1 (splitOnSlash_ne_nil xs)
      · have ih2 : splitOnSlash (xs ++ '/' :: ys) = hd :: (tl ++ splitOnSlash ys) := by
          rw [ih, h1]
          simp
        simp only [List.cons_append, splitOnSlash, h1, if_neg h]
        simp only [List.append_eq]
        rw [ih2]
        simp

theorem splitOnSlash_no_slash (cs : List Char) (h : ∀ c ∈ cs, c ≠ '/') :
    splitOnSlash cs = [cs] := by
  induction cs with
  | nil => simp [splitOnSlash]
  | cons c rest ih =>
    have hc : c ≠ '/' := h c (by simp)
    have hr : splitOnSlash rest = [rest] := ih fun x hx => h x (by simp [hx])
    simp [splitOnSlash, hr, if_neg hc]

theorem splitOnSlash_pieces_no_slash (cs : List Char) :
    ∀ l ∈ splitOnSlash cs, ('/' : Char) ∉ l := by
  induction cs with
  | nil => simp [splitOnSlash]
  | cons c rest ih =>
    intro l hl
    by_cases h : c = '/'
    · subst h
      rw [splitOnSlash_cons_slash] at hl
      rcases List.mem_cons.mp hl with rfl | hl
      · simp
      · exact ih l hl
    · rcases h1 : splitOnSlash rest with _ | ⟨hd, tl⟩
      · exact absurd h1 (splitOnSlash_ne_nil rest)
      · simp only [splitOnSlash, h1, if_neg h] at hl
        rcases List.mem_cons.mp hl with rfl | hl
        · intro hmem
          rcases List.mem_cons.mp hmem with h2 | h2
          · exact h h2.symm
          · exact ih hd (by simp [h1]) h2
        · have hmem : l ∈ tl := by simpa using hl
          exact ih l (by rw [h1]; exact List.mem_cons_of_mem _ hmem)

theorem pySplitSlash_ne_nil (s : String) : pySplitSlash s ≠ [] := by
  simp only [pySplitSlash, ne_eq, List.map_eq_nil_iff]
  exact splitOnSlash_ne_nil s.data

theorem pySplitSlash_no_slash (s : String) (h : ∀ c ∈ s.data, c ≠ '/') :
    pySplitSlash s = [s] := by
  simp [pySplitSlash, splitOnSlash_no_slash s.data h]

theorem pySplitSlash_pieces (s : String) :
    ∀ p ∈ pySplitSlash s, ('/' : Char) ∉ p.data := by
  intro p hp
  simp only [pySplitSlash, List.mem_map] at hp
  rcases hp with ⟨l, hl, rfl⟩
  exact splitOnSlash_pieces_no_slash s.data l hl

theorem flattenParts_append (xs ys : List CallableArg) :
    flattenParts (xs ++ ys) = flattenParts xs ++ flattenParts ys := by
  induction xs with
  | nil => simp [flattenParts]
  | cons a xs ih => simp [flattenParts, ih]

theorem flattenParts_pieces (args : List CallableArg) :
    ∀ p ∈ flattenParts args, ('/' : Char) ∉ p.data := by
  induction args with
  | nil => simp [flattenParts]
  | cons a rest ih =>
    intro p hp
    rcases List.mem_append.mp hp with hp | hp
    · exact pySplitSlash_pieces _ p hp
    · exact ih p hp

theorem flattenParts_ne_nil (a : CallableArg) (rest : List CallableArg) :
    flattenParts (a :: rest) ≠ [] := by
  simp only [flattenParts]
  intro h
  exact pySplitSlash_ne_nil _ (List.append_eq_nil.mp h).1

theorem flattenParts_resplit (parts : List String)
    (h : ∀ p ∈ parts, ('/' : Char) ∉ p.data) :
    flattenParts (parts.map CallableArg.str) = parts := by
  induction parts with
  | nil => simp [flattenParts]
  | cons p rest ih =>
    have hp : pySplitSlash p = [p] :=
      pySplitSlash_no_slash p fun c hc he => h p (by simp) (he ▸ hc)
    simp only [List.map_cons, flattenParts, CallableArg.pyStr, hp]
    simpa using ih fun q hq => h q (by simp [hq])

/-! ### Decimal representations contain no slash -/

theorem digitChar_ne_slash (n : Nat) : Nat.digitChar n ≠ '/' := by
  by_cases h : n < 16
  · interval_cases n <;> decide
  · have h0 : ¬ n = 0 := by omega
    have h1 : ¬ n = 1 := by omega
    have h2 : ¬ n = 2 := by omega
    have h3 : ¬ n = 3 := by omega
    have h4 : ¬ n = 4 := by omega
    have h5 : ¬ n = 5 := by omega
    have h6 : ¬ n = 6 := by omega
    have h7 : ¬ n = 7 := by omega
    have h8 : ¬ n = 8 := by omega
    have h9 : ¬ n = 9 := by omega
    have h10 : ¬ n = 10 := by omega
    have h11 : ¬ n = 11 := by omega
    have h12 : ¬ n = 12 := by omega
    have h13 : ¬ n = 13 := by omega
    have h14 : ¬ n = 14 := by omega
    have h15 : ¬ n = 15 := by omega
    simp only [Nat.digitChar, h0, h1, h2, h3, h4, h5, h6, h7, h8, h9, h10, h11,
      h12, h13, h14, h15, if_false]
    decide

theorem toDigitsCore_ne_slash (base fuel n : Nat) (ds : List Char)
    (h : ∀ c ∈ ds, c ≠ '/') : ∀ c ∈ Nat.toDigitsCore base fuel n ds, c ≠ '/' := by
  induction fuel generalizing n ds with
  | zero => simpa [Nat.toDigitsCore] using h
  | succ fuel ih =>
    simp only [Nat.toDigitsCore]
    split
    · intro c hc
      rcases List.mem_cons.mp hc with rfl | hc
      · exact digitChar_ne_slash _
      · exact h c hc
    · refine ih _ _ ?_
      intro c hc
      rcases List.mem_cons.mp hc with rfl | hc
      · exact digitChar_ne_slash _
      · exact h c hc

theorem natRepr_ne_slash (n : Nat) : ∀ c ∈ (Nat.repr n).data, c ≠ '/' := by
  have := toDigitsCore_ne_slash 10 (n + 1) n [] (by simp)
  simpa [Nat.repr, Nat.toDigits, List.asString] using this

theorem intRepr_ne_slash (i : Int) : ∀ c ∈ (Int.repr i).data, c ≠ '/' := by
  cases i with
  | ofNat n => simpa [Int.repr] using natRepr_ne_slash n
  | negSucc n =>
    intro c hc
    have : ("-" ++ Nat.repr (n + 1)).data = '-' :: (Nat.repr (n + 1)).data := by
      simp [String.data_append]
    rw [Int.repr, this] at hc
    rcases List.mem_cons.mp hc with rfl | hc
    · decide
    · exact natRepr_ne_slash (n + 1) c hc

/-! ### Further supporting lemmas -/

theorem pyStartsWith_append_left (s t : String) (h : pyStartsWith s "/" = true) :
    pyStartsWith (s ++ t) "/" = true := by
  simp only [pyStartsWith, decide_eq_true_eq] at h ⊢
  rcases h with ⟨r, hr⟩
  refine ⟨r ++ t.data, ?_⟩
  rw [String.data_append, ← hr]
  simp

theorem pyStartsWith_slash_append (t : String) : pyStartsWith ("/" ++ t) "/" = true := by
  simp only [pyStartsWith, decide_eq_true_eq]
  exact ⟨t.data, by rw [String.data_append]⟩

theorem normalizedPath_startsWith (conn : Connection) (path : String)
    (ps : Option (Option String)) :
    pyStartsWith (normalizedPath conn path ps) "/" = true := by
  simp only [normalizedPath]
  by_cases h : pyStartsWith path "/" = true
  · simp only [if_pos h]
    split
    · exact pyStartsWith_append_left _ _ h
    · exact h
  · simp only [if_neg h]
    split
    · exact pyStartsWith_append_left _ _ (pyStartsWith_slash_append path)
    · exact pyStartsWith_slash_append path

/-! ### Claim theorems -/

/-- C7: constructing a `Connection` on a root whose scheme is not
`http`/`https` — e.g. `Connection("foo")`, which has no scheme at all — fails
inside `_validate_root` at construction time (the spec calls this failure
`InvalidRootError`), and the failure propagates out of the constructor. -/
theorem connection_invalid_root :
    Connection.make "foo" = .error InvalidRootError.invalidScheme ∧
    validate_root "foo" = .error InvalidRootError.invalidScheme := by
  exact ⟨rfl, rfl⟩

/-- C9 counterexample: the accumulator built from the single argument
`"/bar"` has segment list `["", "bar"]` — the leading slash does produce an
empty segment, contradicting the claimed invariant. -/
theorem segments_empty_string_counterexample :
    (Callable.init conn0 [CallableArg.str "/bar"]).parts = ["", "bar"] ∧
    "" ∈ (Callable.init conn0 [CallableArg.str "/bar"]).parts := by
  exact ⟨by decide, by decide⟩

/-- C9 amended: the segment list is exactly the concatenation of each
stringified argument split on `/`, so leading, trailing or doubled slashes in
arguments do contribute empty segments: an argument `"/s"` yields `""`
followed by the split of `s`, and an argument `"s/"` yields the split of `s`
followed by `""`. -/
theorem segments_split_amended (conn : Connection) (s : String)
    (args : List CallableArg) :
    (Callable.init conn args).parts = flattenParts args ∧
    (Callable.init conn [CallableArg.str ("/" ++ s)]).parts = "" :: pySplitSlash s ∧
    (Callable.init conn [CallableArg.str (s ++ "/")]).parts = pySplitSlash s ++ [""] := by
  refine ⟨rfl, ?_, ?_⟩
  · show pySplitSlash ("/" ++ s) ++ [] = "" :: pySplitSlash s
    have hdata : ("/" ++ s).data = '/' :: s.data := by
      rw [String.data_append]
      rfl
    simp [pySplitSlash, hdata, splitOnSlash_cons_slash]
  · show pySplitSlash (s ++ "/") ++ [] = pySplitSlash s ++ [""]
    have hdata : (s ++ "/").data = s.data ++ '/' :: [] := by
      rw [String.data_append]
    have hsplit : splitOnSlash (s.data ++ '/' :: []) = splitOnSlash s.data ++ [[]] :=
      splitOnSlash_append s.data []
    simp [pySplitSlash, hdata, hsplit]

/-- C4: the derived path of an accumulator is `"/"` plus the `/`-join of its
segments (so the empty chain has path `"/"`), an integer argument becomes its
decimal string form as one segment, and an argument containing `/` produces
exactly the accumulator obtained by passing the pieces separately:
`acc("a/b")` equals `acc("a")("b")`. -/
theorem callable_path_join_split (conn : Connection) (c : Callable)
    (i : Int) (a b : String) :
    Callable.path c = "/" ++ String.intercalate "/" c.parts ∧
    Callable.path ⟨conn, []⟩ = "/" ∧
    (Callable.init conn [CallableArg.int i]).parts = [Int.repr i] ∧
    Callable.call c [CallableArg.str (a ++ "/" ++ b)]
      = Callable.call (Callable.call c [CallableArg.str a]) [CallableArg.str b] := by
  refine ⟨rfl, rfl, ?_, ?_⟩
  · show pySplitSlash (Int.repr i) ++ [] = [Int.repr i]
    rw [pySplitSlash_no_slash _ fun c hc => intRepr_ne_slash i c hc]
    rfl
  · have hdata : (a ++ "/" ++ b).data = a.data ++ '/' :: b.data := by
      rw [String.data_append, String.data_append]
      simp
    have hsplit : pySplitSlash (a ++ "/" ++ b) = pySplitSlash a ++ pySplitSlash b := by
      simp [pySplitSlash, hdata, splitOnSlash_append]
    have hsf : ∀ p ∈ flattenParts (c.parts.map CallableArg.str) ++ pySplitSlash a,
        ('/' : Char) ∉ p.data := by
      intro p hp
      rcases List.mem_append.mp hp with hp | hp
      · exact flattenParts_pieces _ p hp
      · exact pySplitSlash_pieces _ p hp
    have hcall : ∀ (self : Callable) (x : CallableArg) (rest : List CallableArg),
        Callable.call self (x :: rest)
          = Callable.init self.connection (self.parts.map CallableArg.str ++ x :: rest) := by
      intro self x rest
      simp [Callable.call]
    rw [hcall, hcall, hcall]
    simp only [Callable.init]
    congr 1
    rw [flattenParts_append, flattenParts_append]
    have e2 : flattenParts ((flattenParts (c.parts.map CallableArg.str ++ [CallableArg.str a])).map CallableArg.str)
        = flattenParts (c.parts.map CallableArg.str) ++ pySplitSlash a := by
      rw [flattenParts_append]
      have : flattenParts [CallableArg.str a] = pySplitSlash a := by
        simp [flattenParts, CallableArg.pyStr]
      rw [this]
      exact flattenParts_resplit _ hsf
    rw [e2]
    simp [flattenParts, CallableArg.pyStr, hsplit]

/-- C8: calling an accumulator with zero arguments returns it unchanged (the
code returns `self` itself, allocating nothing), while calling with at least
one argument returns a new accumulator whose segment list strictly extends
the original's; the original value, being immutable, is untouched.  The
slash-free hypothesis on existing segments holds for every accumulator the
API can produce, since segments always come from splitting on `/`. -/
theorem callable_call_extension (c : Callable) (args : List CallableArg)
    (hsf : ∀ p ∈ c.parts, ('/' : Char) ∉ p.data) (hne : args ≠ []) :
    Callable.call c [] = c ∧
    (Callable.call c args).parts = c.parts ++ flattenParts args ∧
    c.parts.length < (Callable.call c args).parts.length := by
  have hz : Callable.call c [] = c := by simp [Callable.call]
  rcases args with _ | ⟨a, rest⟩
  · exact absurd rfl hne
  · have hext : (Callable.call c (a :: rest)).parts = c.parts ++ flattenParts (a :: rest) := by
      have hne2 : (a :: rest : List CallableArg) ≠ [] := List.cons_ne_nil a rest
      simp only [Callable.call, if_neg hne2, Callable.init]
      rw [flattenParts_append, flattenParts_resplit _ hsf]
    refine ⟨hz, hext, ?_⟩
    rw [hext, List.length_append]
    have : flattenParts (a :: rest) ≠ [] := flattenParts_ne_nil a rest
    have hlen : 0 < (flattenParts (a :: rest)).length := List.length_pos.mpr this
    omega

/-- Witness for C8 at a concrete accumulator and argument list. -/
theorem callable_call_extension_witness :
    Callable.call (Callable.init conn0 [CallableArg.str "foo"]) [] = Callable.init conn0 [CallableArg.str "foo"] ∧
    (Callable.call (Callable.init conn0 [CallableArg.str "foo"]) [CallableArg.str "bar"]).parts
      = (Callable.init conn0 [CallableArg.str "foo"]).parts ++ flattenParts [CallableArg.str "bar"] ∧
    (Callable.init conn0 [CallableArg.str "foo"]).parts.length
      < (Callable.call (Callable.init conn0 [CallableArg.str "foo"]) [CallableArg.str "bar"]).parts.length :=
  callable_call_extension (Callable.init conn0 [CallableArg.str "foo"])
    [CallableArg.str "bar"] (by decide) (by decide)

/-- C2: the path handed to the transport always begins with `/`; the
effective suffix is the `path_suffix` argument when provided (stringified, so
an explicit `None` yields `"None"`) and the `PATH_SUFFIX` field when the
argument is omitted; the suffix is appended exactly when it is nonempty and
the path does not already end with it; and the final URL is the concatenation
`root + path`. -/
theorem request_path_normalization (conn : Connection) (method path : String)
    (args : RequestArgs) :
    (conn.request method path args).url
      = conn.root ++ normalizedPath conn path args.path_suffix ∧
    pyStartsWith (normalizedPath conn path args.path_suffix) "/" = true ∧
    effectiveSuffix conn args.path_suffix
      = (match args.path_suffix with
         | none => conn.PATH_SUFFIX
         | some v => pyStrOfOptStr v) ∧
    normalizedPath conn path args.path_suffix
      = (let base := if pyStartsWith path "/" then path else "/" ++ path
         let suf := effectiveSuffix conn args.path_suffix
         if suf != "" && !pyEndsWith base suf then base ++ suf else base) :=
  ⟨rfl, normalizedPath_startsWith conn path args.path_suffix, rfl, rfl⟩

/-- C10: passing `path_suffix=None` explicitly (rather than omitting the
argument) stringifies it, so the effective suffix is the literal string
`"None"`, appended whenever the path does not already end with it; e.g.
`request('get', '/foo', path_suffix=None)` requests URL path `/fooNone`. -/
theorem path_suffix_none_stringified (conn : Connection) (path : String)
    (h : pyEndsWith (if pyStartsWith path "/" then path else "/" ++ path) "None" = false) :
    effectiveSuffix conn (some none) = "None" ∧
    normalizedPath conn path (some none)
      = (if pyStartsWith path "/" then path else "/" ++ path) ++ "None" ∧
    (conn.request "get" path ⟨none, some DataModes.FORM, none, some none⟩).url
      = conn.root ++ normalizedPath conn path (some none) := by
  refine ⟨rfl, ?_, rfl⟩
  simp only [normalizedPath, effectiveSuffix, pyStrOfOptStr, h]
  simp

/-- Witness for C10 at the claim's example input. -/
theorem path_suffix_none_stringified_witness :
    effectiveSuffix conn0 (some none) = "None" ∧
    normalizedPath conn0 "/foo" (some none)
      = (if pyStartsWith "/foo" "/" then "/foo" else "/" ++ "/foo") ++ "None" ∧
    (conn0.request "get" "/foo" ⟨none, some DataModes.FORM, none, some none⟩).url
      = conn0.root ++ normalizedPath conn0 "/foo" (some none) :=
  path_suffix_none_stringified conn0 "/foo" (by decide)

/-- C6: with `data` provided and `data_mode=JSON`, the body handed to the
transport is the JSON text serialization of `data`; with any other mode
(`FORM` is the default) the value is passed through unchanged; an omitted
`data` (the `NotProvided` sentinel) sends no body argument at all, so an
explicit `None` body is distinguished from an omitted one. -/
theorem request_data_modes (conn : Connection) (method path : String)
    (d : PyValue) (dm : Option DataModes) (hd : Option PyValue)
    (ps : Option (Option String)) (hdm : dm ≠ some DataModes.JSON) :
    (conn.request method path ⟨some d, some DataModes.JSON, hd, ps⟩).data
      = some (.scalar (.str (jsonDumps d))) ∧
    (conn.request method path ⟨some d, dm, hd, ps⟩).data = some d ∧
    (conn.request method path ⟨none, dm, hd, ps⟩).data = none ∧
    (conn.request method path ⟨some (.scalar .null), dm, hd, ps⟩).data ≠ none := by
  refine ⟨rfl, ?_, rfl, ?_⟩
  · simp [Connection.request, hdm]
  · simp [Connection.request, hdm]

/-- Witness for C6 at the spec's end-to-end scenario payload. -/
theorem request_data_modes_witness :
    jsonDumps (PyValue.dict [("foo", PyScalar.str "bar")]) = "\x7b\"foo\": \"bar\"\x7d" ∧
    (conn0.request "post" "/dummy_post_json"
        ⟨some (PyValue.dict [("foo", PyScalar.str "bar")]), some DataModes.JSON, none, none⟩).data
      = some (.scalar (.str (jsonDumps (PyValue.dict [("foo", PyScalar.str "bar")])))) ∧
    (conn0.request "post" "/dummy_post_form"
        ⟨some (PyValue.dict [("foo", PyScalar.str "bar")]), some DataModes.FORM, none, none⟩).data
      = some (PyValue.dict [("foo", PyScalar.str "bar")]) :=
  ⟨by decide,
   (request_data_modes conn0 "post" "/dummy_post_json" (PyValue.dict [("foo", PyScalar.str "bar")])
      (some DataModes.FORM) none none (by decide)).1,
   (request_data_modes conn0 "post" "/dummy_post_form" (PyValue.dict [("foo", PyScalar.str "bar")])
      (some DataModes.FORM) none none (by decide)).2.1⟩

/-- C3: every name of the HTTP method set, in upper, lower or capitalized
form, resolves on a `Connection` to an `Executable` carrying the uppercased
method and no path, and on a `Callable` to an `Executable` carrying the
uppercased method and the accumulator's derived path; a name whose uppercase
form is outside the set extends the chain with a new `Callable` instead. -/
theorem getattr_method_dispatch (conn : Connection) (c : Callable) :
    (∀ m ∈ HTTP_METHODS, ∀ v, (v = m ∨ v = lowerStr m ∨ v = pyCapitalize m) →
      Connection.getattr conn v = .ex ⟨conn, m, none⟩ ∧
      Callable.getattr c v = .ex ⟨c.connection, m, some (Callable.path c)⟩) ∧
    (∀ attr, upperStr attr ∉ HTTP_METHODS →
      Connection.getattr conn attr = .call (Callable.init conn [CallableArg.str attr]) ∧
      Callable.getattr c attr
        = .call (Callable.init c.connection (c.parts.map CallableArg.str ++ [CallableArg.str attr]))) := by
  constructor
  · intro m hm v hv
    fin_cases hm <;> rcases hv with rfl | rfl | rfl <;> exact ⟨rfl, rfl⟩
  · intro attr h
    constructor
    · unfold Connection.getattr
      rw [if_neg h]
    · unfold Callable.getattr
      rw [if_neg h]

/-- Witness for C3 at concrete method names and a non-method name. -/
theorem getattr_method_dispatch_witness :
    Connection.getattr conn0 "get" = .ex ⟨conn0, "GET", none⟩ ∧
    Callable.getattr (Callable.init conn0 [CallableArg.str "foo"]) "Post"
      = .ex ⟨conn0, "POST", some "/foo"⟩ ∧
    Connection.getattr conn0 "users"
      = .call (Callable.init conn0 [CallableArg.str "users"]) := by
  refine ⟨?_, ?_, ?_⟩
  · exact ((getattr_method_dispatch conn0 (Callable.init conn0 [CallableArg.str "foo"])).1
      "GET" (by decide) "get" (Or.inr (Or.inl (by decide)))).1
  · exact (((getattr_method_dispatch conn0 (Callable.init conn0 [CallableArg.str "foo"])).1
      "POST" (by decide) "Post" (Or.inr (Or.inr (by decide)))).2).trans (by decide)
  · exact ((getattr_method_dispatch conn0 (Callable.init conn0 [CallableArg.str "foo"])).2
      "users" (by decide)).1

/-- C5 counterexample: an `Executable` holding the set-but-empty path `""`,
invoked with one positional argument `"x"`: the code treats the empty path as
unset, consumes `"x"` as the path and requests `/x/` with no body, whereas
the resolution order exactly as claimed would use the stored empty path and
forward `"x"` to `request` as its next positional (`data`) argument,
requesting `/` with body `"x"`. -/
theorem executable_call_claim_counterexample :
    Executable.callModel ⟨conn0, "GET", some ""⟩ ["x"] none
        ⟨none, some DataModes.FORM, none, none⟩
      = some ⟨"get", "https://httpbin.org/x/", none, none⟩ ∧
    Executable.claimedCallModel ⟨conn0, "GET", some ""⟩ ["x"] none
        ⟨none, some DataModes.FORM, none, none⟩
      = some ⟨"get", "https://httpbin.org/", some (.scalar (.str "x")), none⟩ ∧
    Executable.callModel ⟨conn0, "GET", some ""⟩ ["x"] none
        ⟨none, some DataModes.FORM, none, none⟩
      ≠ Executable.claimedCallModel ⟨conn0, "GET", some ""⟩ ["x"] none
        ⟨none, some DataModes.FORM, none, none⟩ :=
  ⟨by decide, by decide, by decide⟩

/-- C5 amended: invocation resolves the request path in this order — a set
and nonempty `self.path` is used; else a present `path` keyword argument is
extracted and used; else the first positional argument is used and the
remainder forwarded; and a path that is still unset or empty defaults to
`"/"`; the resolved path and remaining arguments are then passed to
`Connection.request` with the `Executable`'s method and its result returned
directly. -/
theorem executable_call_resolution_amended (e : Executable) (args : List String)
    (kwpath : Option String) (kwargs : RequestArgs) :
    Executable.callModel e args kwpath kwargs
      = Executable.amendedCallModel e args kwpath kwargs ∧
    resolveExec e.path kwpath args = amendedResolve e.path kwpath args := by
  have hres : ∀ selfPath, resolveExec selfPath kwpath args = amendedResolve selfPath kwpath args := by
    intro selfPath
    rcases selfPath with _ | p
    · rcases kwpath with _ | kp <;> rcases args with _ | ⟨a, rest⟩ <;>
        simp [resolveExec, amendedResolve, resolveFallback, pyTruthyStr]
    · by_cases hp : p = ""
      · subst hp
        rcases kwpath with _ | kp <;> rcases args with _ | ⟨a, rest⟩ <;>
          simp [resolveExec, amendedResolve, resolveFallback, pyTruthyStr]
      · simp [resolveExec, amendedResolve, pyTruthyStr, hp]
  constructor
  · unfold Executable.callModel Executable.amendedCallModel
    rw [hres e.path]
  · exact hres e.path

/-! ### Lemmas for root-URL validation -/

theorem stringDataEq (a b : String) (h : a.data = b.data) : a = b := by
  cases a
  cases b
  exact congrArg String.mk h

theorem splitFirst_append (sep : Char) (xs ys : List Char) (h : ∀ c ∈ xs, c ≠ sep) :
    splitFirst sep (xs ++ sep :: ys) = (xs, some ys) := by
  induction xs with
  | nil => simp [splitFirst]
  | cons c rest ih =>
    have hc : c ≠ sep := h c (by simp)
    have ih2 := ih fun x hx => h x (by simp [hx])
    simp [splitFirst, if_neg hc, ih2]

theorem splitFirst_none (sep : Char) (xs : List Char) (h : ∀ c ∈ xs, c ≠ sep) :
    splitFirst sep xs = (xs, none) := by
  induction xs with
  | nil => simp [splitFirst]
  | cons c rest ih =>
    have hc : c ≠ sep := h c (by simp)
    have ih2 := ih fun x hx => h x (by simp [hx])
    simp [splitFirst, if_neg hc, ih2]

theorem takeWhile_append_of_all (p : Char → Bool) (xs ys : List Char)
    (h : ∀ c ∈ xs, p c = true) :
    (xs ++ ys).takeWhile p = xs ++ ys.takeWhile p := by
  induction xs with
  | nil => simp
  | cons c rest ih =>
    have hc : p c = true := h c (by simp)
    simp [List.takeWhile_cons_of_pos hc, ih fun x hx => h x (by simp [hx])]

theorem dropWhile_append_of_all (p : Char → Bool) (xs ys : List Char)
    (h : ∀ c ∈ xs, p c = true) :
    (xs ++ ys).dropWhile p = ys.dropWhile p := by
  induction xs with
  | nil => simp
  | cons c rest ih =>
    have hc : p c = true := h c (by simp)
    simp [List.dropWhile_cons_of_pos hc, ih fun x hx => h x (by simp [hx])]

theorem takeWhile_nil_of_head (l : List Char)
    (h : ∀ c, l.head? = some c → netlocChar c = false) :
    l.takeWhile netlocChar = [] ∧ l.dropWhile netlocChar = l := by
  cases l with
  | nil => simp
  | cons c t =>
    have hc : ¬ (netlocChar c = true) := by simp [h c rfl]
    exact ⟨List.takeWhile_cons_of_neg hc, List.dropWhile_cons_of_neg hc⟩

theorem scheme_facts (s : String)
    (hl : lowerStr s = "http" ∨ lowerStr s = "https")
    (ha : ∀ c ∈ s.data, c.isAlpha = true) :
    s.data.isEmpty = false ∧ (s.data.headD ' ').isAlpha = true ∧
    s.data.all isSchemeChar = true ∧ (∀ c ∈ s.data, c ≠ ':') := by
  have hnil : s.data ≠ [] := by
    intro hd
    rcases hl with h1 | h1 <;>
    · have h2 := congrArg String.data h1
      rw [show (lowerStr s).data = s.data.map Char.toLower from rfl, hd] at h2
      exact absurd h2 (by decide)
  refine ⟨?_, ?_, ?_, ?_⟩
  · cases hd : s.data with
    | nil => exact absurd hd hnil
    | cons c t => rfl
  · cases hd : s.data with
    | nil => exact absurd hd hnil
    | cons c t =>
      have : c ∈ s.data := by rw [hd]; simp
      have h2 := ha c this
      simpa using h2
  · rw [List.all_eq_true]
    intro c hc
    simp [isSchemeChar, ha c hc]
  · intro c hc he
    have := ha c hc
    rw [he] at this
    exact absurd this (by decide)

theorem splitScheme_append (xs rest : List Char)
    (hne : xs.isEmpty = false) (hhead : (xs.headD ' ').isAlpha = true)
    (hall : xs.all isSchemeChar = true) (hcolon : ∀ c ∈ xs, c ≠ ':') :
    splitScheme (xs ++ ':' :: rest) = (xs.map Char.toLower, rest) := by
  unfold splitScheme
  rw [splitFirst_append ':' xs rest hcolon]
  dsimp only
  rw [hne, hhead, hall]
  rfl

theorem splitNetloc_cons (rest : List Char) :
    splitNetloc ('/' :: '/' :: rest)
      = (rest.takeWhile netlocChar, rest.dropWhile netlocChar) := rfl

theorem urlparse_render (u : RootUrl) (h : u.Valid) :
    urlparse u.render
      = ⟨lowerStr u.scheme, u.netloc, u.path, u.query.getD "", u.fragment.getD ""⟩ := by
  obtain ⟨s, n, pth, q, f⟩ := u
  obtain ⟨hsch, hschAlpha, hnet, hnetc, hpath, hpathc, hqc⟩ := h
  dsimp only at hsch hschAlpha hnet hnetc hpath hpathc hqc ⊢
  obtain ⟨hnil, hhead, hall, hcolon⟩ := scheme_facts s hsch hschAlpha
  have hdata : (RootUrl.mk s n pth q f).render.data
      = s.data ++ ':' ::
          ('/' :: '/' ::
            (n.data ++ (pth.data ++ (optMarkData '?' q ++ optMarkData '#' f)))) := by
    rcases q with _ | q0 <;> rcases f with _ | f0 <;>
      simp [RootUrl.render, String.data_append, optMarkData,
        show ("://" : String).data = [':', '/', '/'] from by decide,
        show ("?" : String).data = ['?'] from by decide,
        show ("#" : String).data = ['#'] from by decide,
        show ("" : String).data = [] from by decide]
  have hstage1 : splitScheme (RootUrl.mk s n pth q f).render.data
      = (s.data.map Char.toLower,
         '/' :: '/' ::
           (n.data ++ (pth.data ++ (optMarkData '?' q ++ optMarkData '#' f)))) := by
    rw [hdata]
    exact splitScheme_append s.data _ hnil hhead hall hcolon
  have htail : ∀ c,
      (pth.data ++ (optMarkData '?' q ++ optMarkData '#' f)).head? = some c →
      netlocChar c = false := by
    intro c hc
    rcases hpath with hp0 | ⟨hphead, _⟩
    · have hp0d : pth.data = [] := by rw [hp0]
      rw [hp0d, List.nil_append] at hc
      rcases q with _ | q0
      · rcases f with _ | f0
        · simp [optMarkData] at hc
        · simp [optMarkData] at hc
          rw [← hc]
          decide
      · simp [optMarkData] at hc
        rw [← hc]
        decide
    · cases hd : pth.data with
      | nil => rw [hd] at hphead; exact absurd hphead (by simp)
      | cons a t =>
        rw [hd] at hphead
        have ha : a = '/' := by simpa using hphead
        rw [hd, ha] at hc
        simp at hc
        rw [← hc]
        decide
  have hstage2 : splitNetloc
      ('/' :: '/' ::
        (n.data ++ (pth.data ++ (optMarkData '?' q ++ optMarkData '#' f))))
      = (n.data, pth.data ++ (optMarkData '?' q ++ optMarkData '#' f)) := by
    have hnc : ∀ c ∈ n.data, netlocChar c = true := by
      intro c hc
      obtain ⟨h1, h2, h3, _, _⟩ := hnetc c hc
      simp [netlocChar]
      exact ⟨⟨h1, h2⟩, h3⟩
    obtain ⟨ht, hdr⟩ := takeWhile_nil_of_head _ htail
    rw [splitNetloc_cons]
    rw [takeWhile_append_of_all _ _ _ hnc, dropWhile_append_of_all _ _ _ hnc, ht, hdr,
      List.append_nil]
  have hnoHash : ∀ c ∈ pth.data ++ optMarkData '?' q, c ≠ '#' := by
    intro c hc
    rcases List.mem_append.mp hc with hc | hc
    · exact (hpathc c hc).2.1
    · rcases q with _ | q0
      · simp [optMarkData] at hc
      · simp [optMarkData] at hc
        rcases hc with rfl | hc
        · decide
        · exact hqc c (by simpa using hc)
  have hstage3 : splitFirst '#'
      (pth.data ++ (optMarkData '?' q ++ optMarkData '#' f))
      = (pth.data ++ optMarkData '?' q, f.map String.data) := by
    rcases f with _ | f0
    · show splitFirst '#' (pth.data ++ (optMarkData '?' q ++ []))
        = (pth.data ++ optMarkData '?' q, none)
      rw [List.append_nil]
      exact splitFirst_none '#' _ hnoHash
    · show splitFirst '#' (pth.data ++ (optMarkData '?' q ++ ('#' :: f0.data)))
        = (pth.data ++ optMarkData '?' q, some f0.data)
      have hassoc : pth.data ++ (optMarkData '?' q ++ ('#' :: f0.data))
          = (pth.data ++ optMarkData '?' q) ++ '#' :: f0.data := by
        simp
      rw [hassoc]
      exact splitFirst_append '#' _ _ hnoHash
  have hnoQ : ∀ c ∈ pth.data, c ≠ '?' := fun c hc => (hpathc c hc).1
  have hstage4 : splitFirst '?' (pth.data ++ optMarkData '?' q)
      = (pth.data, q.map String.data) := by
    rcases q with _ | q0
    · show splitFirst '?' (pth.data ++ []) = (pth.data, none)
      rw [List.append_nil]
      exact splitFirst_none '?' pth.data hnoQ
    · show splitFirst '?' (pth.data ++ ('?' :: q0.data)) = (pth.data, some q0.data)
      exact splitFirst_append '?' pth.data q0.data hnoQ
  simp only [urlparse, hstage1, hstage2, hstage3, hstage4]
  rcases q with _ | q0 <;> rcases f with _ | f0 <;> rfl

theorem urlunsplit_root (sch n p : String) (hs : sch ≠ "") (hn : n ≠ "")
    (hp : p = "" ∨ p.data.head? = some '/') :
    urlunsplit sch n p "" "" = sch ++ "://" ++ n ++ p := by
  have hcond1 : (n != "" || (p != "" && decide (p.data.take 2 = ['/', '/']))) = true := by
    simp [hn]
  have hcond2 : (p != "" && !pyStartsWith p "/") = false := by
    rcases hp with rfl | hp
    · simp
    · obtain ⟨t, ht⟩ : ∃ t, p.data = '/' :: t := by
        cases hd : p.data with
        | nil => rw [hd] at hp; exact absurd hp (by simp)
        | cons a tl =>
          rw [hd] at hp
          have : a = '/' := by simpa using hp
          exact ⟨tl, by rw [this]⟩
      have hst : pyStartsWith p "/" = true := by
        simp only [pyStartsWith, decide_eq_true_eq,
          show ("/" : String).data = ['/'] from by decide, ht]
        exact ⟨t, rfl⟩
      simp [hst]
  have hb : (sch != "") = true := by simp [hs]
  have hq : (("" : String) != "") = false := by decide
  simp only [urlunsplit, hcond1, hcond2, hb, hq, if_true, if_false,
    Bool.false_eq_true, Bool.true_eq_false, ite_true, ite_false]
  apply stringDataEq
  simp [String.data_append,
    show (":" : String).data = [':'] from by decide,
    show ("//" : String).data = ['/', '/'] from by decide,
    show ("://" : String).data = [':', '/', '/'] from by decide]

theorem pyEndsWith_double_single (p : String) (h : pyEndsWith p "//" = true) :
    pyEndsWith p "/" = true := by
  simp only [pyEndsWith, decide_eq_true_eq,
    show ("/" : String).data = ['/'] from by decide,
    show ("//" : String).data = ['/', '/'] from by decide] at h ⊢
  obtain ⟨t, ht⟩ := h
  refine ⟨t ++ ['/'], ?_⟩
  rw [← ht]
  simp

theorem stripTrailingSlash_facts (p : String)
    (hp : p = "" ∨ (p.data.head? = some '/' ∧ pyEndsWith p "//" = false)) :
    pyEndsWith (stripTrailingSlash p) "/" = false ∧
    (stripTrailingSlash p = "" ∨ (stripTrailingSlash p).data.head? = some '/') ∧
    (∀ c ∈ (stripTrailingSlash p).data, c ∈ p.data) := by
  rcases hp with rfl | ⟨hphead, hpne⟩
  · refine ⟨by decide, Or.inl (by decide), ?_⟩
    intro c hc
    exact hc
  · by_cases he : pyEndsWith p "/" = true
    · obtain ⟨xs, hxs⟩ : ∃ xs, xs ++ ['/'] = p.data := by
        have h2 : (("/" : String).data) <:+ p.data := by
          simpa [pyEndsWith, decide_eq_true_eq] using he
        simpa [show ("/" : String).data = ['/'] from by decide] using h2
      have hd : p.data.dropLast = xs := by
        rw [← hxs]
        simp
      have hstrip : stripTrailingSlash p = ⟨xs⟩ := by
        simp [stripTrailingSlash, he, hd]
      refine ⟨?_, ?_, ?_⟩
      · rw [hstrip]
        by_contra hcon
        simp only [Bool.not_eq_false] at hcon
        obtain ⟨ys, hys⟩ : ∃ ys, ys ++ ['/'] = xs := by
          have h2 : (("/" : String).data) <:+ xs := by
            simpa [pyEndsWith, decide_eq_true_eq] using hcon
          simpa [show ("/" : String).data = ['/'] from by decide] using h2
        have hdouble : pyEndsWith p "//" = true := by
          simp only [pyEndsWith, decide_eq_true_eq,
            show ("//" : String).data = ['/', '/'] from by decide]
          refine ⟨ys, ?_⟩
          rw [← hxs, ← hys]
          simp
        rw [hdouble] at hpne
        exact absurd hpne (by decide)
      · rcases xs with _ | ⟨y, ys⟩
        · exact Or.inl (by rw [hstrip])
        · right
          rw [hstrip]
          have hy : y = '/' := by
            have h2 := hphead
            rw [← hxs] at h2
            simpa using h2
          simp [hy]
      · intro c hc
        rw [hstrip] at hc
        rw [← hxs]
        simp at hc ⊢
        exact Or.inl hc
    · have hstrip : stripTrailingSlash p = p := by
        simp [stripTrailingSlash, he]
      rw [hstrip]
      exact ⟨by simpa using he, Or.inr hphead, fun c hc => hc⟩

/-- C1: for every valid root URL (scheme `http`/`https` in any case, host,
optional path with at most one trailing slash, optional query and fragment),
`_validate_root` lowercases the scheme (which `urlparse` does; host and path
keep their case), strips the trailing slash from the path, drops query and
fragment, and returns `scheme://host path`; validating that output again
returns it unchanged, so validation is idempotent. -/
theorem validate_root_spec (u : RootUrl) (h : u.Valid) :
    validate_root u.render
      = .ok (lowerStr u.scheme ++ "://" ++ u.netloc ++ stripTrailingSlash u.path) ∧
    validate_root (lowerStr u.scheme ++ "://" ++ u.netloc ++ stripTrailingSlash u.path)
      = .ok (lowerStr u.scheme ++ "://" ++ u.netloc ++ stripTrailingSlash u.path) := by
  have hmain : ∀ v : RootUrl, v.Valid →
      validate_root v.render
        = .ok (lowerStr v.scheme ++ "://" ++ v.netloc ++ stripTrailingSlash v.path) := by
    intro v hv
    have hp := urlparse_render v hv
    obtain ⟨hsch, hschAlpha, hnet, hnetc, hpath, hpathc, hqc⟩ := hv
    have hsne : lowerStr v.scheme ≠ "" := by
      rcases hsch with h1 | h1 <;> rw [h1] <;> decide
    have hstrip := stripTrailingSlash_facts v.path hpath
    simp only [validate_root, hp]
    rw [if_pos (show (ParseResult.mk (lowerStr v.scheme) v.netloc v.path
      (v.query.getD "") (v.fragment.getD "")).scheme = "http" ∨
      (ParseResult.mk (lowerStr v.scheme) v.netloc v.path
      (v.query.getD "") (v.fragment.getD "")).scheme = "https" from hsch)]
    show Except.ok (urlunsplit (lowerStr v.scheme) v.netloc (stripTrailingSlash v.path) "" "") = _
    rw [urlunsplit_root _ _ _ hsne hnet hstrip.2.1]
  refine ⟨hmain u h, ?_⟩
  obtain ⟨hsch, hschAlpha, hnet, hnetc, hpath, hpathc, hqc⟩ := h
  have hstrip := stripTrailingSlash_facts u.path hpath
  have hA : lowerStr (lowerStr u.scheme) = "http" ∨ lowerStr (lowerStr u.scheme) = "https" := by
    rcases hsch with h1 | h1
    · exact Or.inl (by rw [h1]; decide)
    · exact Or.inr (by rw [h1]; decide)
  have hB : ∀ c ∈ (lowerStr u.scheme).data, c.isAlpha = true := by
    rcases hsch with h1 | h1 <;> rw [h1] <;> decide
  have hC : stripTrailingSlash u.path = "" ∨
      ((stripTrailingSlash u.path).data.head? = some '/' ∧
        pyEndsWith (stripTrailingSlash u.path) "//" = false) := by
    rcases hstrip.2.1 with h1 | h1
    · exact Or.inl h1
    · refine Or.inr ⟨h1, ?_⟩
      cases hval : pyEndsWith (stripTrailingSlash u.path) "//" with
      | false => rfl
      | true =>
        have h2 := pyEndsWith_double_single _ hval
        rw [hstrip.1] at h2
        exact absurd h2 (by decide)
  have hD : ∀ c ∈ (stripTrailingSlash u.path).data, c ≠ '?' ∧ c ≠ '#' ∧ c ≠ ';' :=
    fun c hc => hpathc c (hstrip.2.2 c hc)
  have hE : ∀ c ∈ (((none : Option String)).getD "").data, c ≠ '#' := by decide
  have hvalid2 : (RootUrl.mk (lowerStr u.scheme) u.netloc (stripTrailingSlash u.path)
      none none).Valid :=
    ⟨hA, hB, hnet, hnetc, hC, hD, hE⟩
  have h2 := hmain (RootUrl.mk (lowerStr u.scheme) u.netloc (stripTrailingSlash u.path)
    none none) hvalid2
  dsimp only at h2
  have hrender2 : (RootUrl.mk (lowerStr u.scheme) u.netloc (stripTrailingSlash u.path)
      none none).render
      = lowerStr u.scheme ++ "://" ++ u.netloc ++ stripTrailingSlash u.path := by
    apply stringDataEq
    simp [RootUrl.render, String.data_append,
      show ("" : String).data = [] from by decide]
  have hll : lowerStr (lowerStr u.scheme) = lowerStr u.scheme := by
    rcases hsch with h1 | h1 <;> rw [h1] <;> decide
  have hsp : ∀ P : String, pyEndsWith P "/" = false → stripTrailingSlash P = P := by
    intro P hP
    simp [stripTrailingSlash, hP]
  rw [hrender2, hll, hsp _ hstrip.1] at h2
  exact h2

/-- Witness for C1 at the spec's scenario `HTTPS://foo.com/bar/`. -/
theorem validate_root_spec_witness :
    (RootUrl.mk "HTTPS" "foo.com" "/bar/" none none).Valid ∧
    validate_root (RootUrl.mk "HTTPS" "foo.com" "/bar/" none none).render
      = .ok (lowerStr "HTTPS" ++ "://" ++ "foo.com" ++ stripTrailingSlash "/bar/") ∧
    validate_root (lowerStr "HTTPS" ++ "://" ++ "foo.com" ++ stripTrailingSlash "/bar/")
      = .ok (lowerStr "HTTPS" ++ "://" ++ "foo.com" ++ stripTrailingSlash "/bar/") :=
  ⟨by decide,
   (validate_root_spec (RootUrl.mk "HTTPS" "foo.com" "/bar/" none none) (by decide)).1,
   (validate_root_spec (RootUrl.mk "HTTPS" "foo.com" "/bar/" none none) (by decide)).2⟩

end IsshubSync
